import Mathlib

/-!
Verification of the word-ladder search engine (`ladder.py`).

The Python source is shallowly embedded below.  Histograms are 26-element
lists of integers (numpy rows hold integer-valued floats; all arithmetic on
them is exact integer arithmetic, so `Int` is a faithful model).  Python's
`list.sort` is a stable sort; a stable sort by a total preorder is a unique
function, so the insertion sort `sortNodes` below is observationally the
same function and is used as its embedding.  Mutation of node objects held
inside the frontier lists (in `attach` / `intersect`) is embedded by
explicit replacement at the matching list position.
-/

namespace Ladder

/-- A letter-count histogram: the embedding of one row of the numpy
`wordlist` array (26 integer counts, one per letter a-z). -/
abbrev Hist := List Int

/-- Increment position `i` of a histogram (the `hist[0,tmp] += 1` update). -/
def bump (l : Hist) (i : Nat) : Hist :=
  l.set i (l.getD i 0 + 1)

/-- Embedding of `word_to_histogram`: lower-case the word, count the
alphabetic characters into a 26-slot histogram, ignore everything else. -/
def word_to_histogram (w : String) : Hist :=
  w.toList.foldl
    (fun h c =>
      let c := c.toLower
      if c.isAlpha then bump h (c.toNat - 97) else h)
    (List.replicate 26 0)

/-- Embedding of `heuristic`: the L1 distance
`np.sum(abs(hist1[0,:]-hist2[0,:]))` between two histograms. -/
def heuristic (h1 h2 : Hist) : Int :=
  (List.zipWith (fun a b => |a - b|) h1 h2).sum

/-- Helper for `hist_to_index`: scan the remaining rows carrying the index
of the first one (the `enumerate` counter). -/
def hist_to_index_go (h : Hist) (wl : List Hist) (i : Nat) : Int :=
  match wl with
  | [] => -1
  | x :: rest => if x = h then (i : Int) else hist_to_index_go h rest (i + 1)

/-- Embedding of `hist_to_index`: index of the first word whose histogram
equals `other_hist`, and `-1` if none does. -/
def hist_to_index (wl : List Hist) (h : Hist) : Int :=
  hist_to_index_go h wl 0

/-- Embedding of the module-level wordlist construction: one histogram per
dictionary word, in file order. -/
def mk_wordlist (words : List String) : List Hist :=
  words.map word_to_histogram

/-- Embedding of class `Node`.  The `mygraph` back-reference is not stored;
the functions below take the graph data they read from it as arguments. -/
structure Node where
  current_hist : Hist
  cost_f : Int
  cost_h : Int
  cost_total : Int
  actions : List Int
deriving DecidableEq, Repr

/-- Embedding of `Node.__init__` (fresh-root branch): cost 0, heuristic to
the graph's target, path holding the index of the start word. -/
def Node.init (wl : List Hist) (start_hist target_hist : Hist) : Node :=
  { current_hist := start_hist
    cost_f := 0
    cost_h := heuristic start_hist target_hist
    cost_total := 0 + heuristic start_hist target_hist
    actions := [hist_to_index wl start_hist] }

/-- Embedding of `Node.move_to_neighbour` applied to a copy of `n` (the
source first copy-constructs, then moves the copy). -/
def Node.move_to_neighbour (n : Node) (target_hist : Hist)
    (new_hist : Hist) (new_index : Int) : Node :=
  { current_hist := new_hist
    cost_f := n.cost_f + 1
    cost_h := heuristic new_hist target_hist
    cost_total := n.cost_f + 1 + heuristic new_hist target_hist
    actions := n.actions ++ [new_index] }

/-- Embedding of `Node.is_in_list`: the first node of the list with the
same histogram (`is_same_word`), or `none` (Python returns `False`). -/
def Node.is_in_list (n : Node) (l : List Node) : Option Node :=
  l.find? (fun m => decide (m.current_hist = n.current_hist))

/-- Embedding of `Node.attach`'s effect on `self`: the other node's actions
are reversed in place and appended; costs are summed and the heuristic set
to 0.  (In the source `attach` has no return statement, so its value is
`None`; the in-place reversal of `other.actions` is modelled at the call
site in `intersect`.) -/
def Node.attach (n other : Node) : Node :=
  { current_hist := n.current_hist
    cost_f := n.cost_f + other.cost_f
    cost_h := 0
    cost_total := n.cost_f + other.cost_f + 0
    actions := n.actions ++ other.actions.reverse }

/-- Python list indexing: a negative index counts from the end. -/
def pyIdx (len : Nat) (i : Int) : Nat :=
  if i < 0 then (len + i).toNat else i.toNat

/-- Embedding of `wordlist[index,:]` with Python index semantics (default for the
out-of-range case, which raises in Python and is unused here). -/
def pyGetHist (wl : List Hist) (i : Int) : Hist :=
  wl.getD (pyIdx wl.length i) []

/-- Embedding of `words_original[index]` with Python index semantics. -/
def pyGetStr (words : List String) (i : Int) : String :=
  words.getD (pyIdx words.length i) ""

/-- One entry of `Node.list_of_moves`: an index whose histogram is at
heuristic distance 0 from the graph's start (resp. target) histogram is
emitted as the graph's literal start (resp. target) word; anything else is
emitted with its original spelling. -/
def emit_entry (wl : List Hist) (words : List String) (sh th : Hist)
    (sw tw : String) (index : Int) : String :=
  if heuristic (pyGetHist wl index) sh = 0 then sw
  else if heuristic (pyGetHist wl index) th = 0 then tw
  else pyGetStr words index

/-- Embedding of `Node.list_of_moves` for a node of a graph with start
histogram `sh`, target histogram `th`, and literal words `sw`, `tw`. -/
def list_of_moves (wl : List Hist) (words : List String) (sh th : Hist)
    (sw tw : String) (actions : List Int) : List String :=
  actions.map (emit_entry wl words sh th sw tw)

/-- Embedding of the mutable state of class `SearchGraph`.  The `solution`
attribute is omitted: every caller in the source consumes the return values
of `search_step` / `search`, never the attribute. -/
structure SearchGraph where
  start_word : String
  target_word : String
  start_hist : Hist
  target_hist : Hist
  frontier : List Node
  closed : List Node
deriving DecidableEq, Repr

/-- Embedding of `SearchGraph.__init__`. -/
def SearchGraph.init (wl : List Hist) (s t : String) : SearchGraph :=
  let sh := word_to_histogram s
  let th := word_to_histogram t
  { start_word := s
    target_word := t
    start_hist := sh
    target_hist := th
    frontier := [Node.init wl sh th]
    closed := [] }

/-- Insert a node into an already sorted list, after any node of equal
`cost_total` (this is what makes `sortNodes` stable). -/
def insertNode (n : Node) (l : List Node) : List Node :=
  match l with
  | [] => [n]
  | m :: rest =>
    if n.cost_total < m.cost_total then n :: m :: rest
    else m :: insertNode n rest

/-- Embedding of `self.frontier.sort()`: Python's `list.sort` is stable and
compares nodes through `Node.__lt__`, i.e. by `cost_total`.  A stable sort
by a total preorder is a unique function, so this left-fold insertion sort
is the same function. -/
def sortNodes (l : List Node) : List Node :=
  l.foldl (fun acc n => insertNode n acc) []

/-- Runtime errors of the embedded script. -/
inductive RunResult where
  | ok (r : Option Node)
  | nameError
  | indexError
  | outOfFuel
deriving DecidableEq, Repr

/-- The successor loop of `SearchGraph.search_step` (`for new_index,row in
enumerate(wordlist): ...`), run after the popped node `test` has been
appended to `closed`. -/
def search_step_expand (wl : List Hist) (g : SearchGraph) (test : Node) :
    SearchGraph :=
  wl.enum.foldl
    (fun g p =>
      let new_index := p.1
      let next_hist := p.2
      if heuristic next_hist test.current_hist = 1 then
        let new_node := Node.move_to_neighbour test g.target_hist next_hist
          (new_index : Int)
        match new_node.is_in_list g.closed with
        | some _ => g
        | none =>
          match new_node.is_in_list g.frontier with
          | none => { g with frontier := g.frontier ++ [new_node] }
          | some tmp =>
            -- `if tmp > new_node: tmp = new_node` only rebinds the local
            -- name `tmp`; the stored frontier entry is left unchanged.
            if tmp.cost_total > new_node.cost_total then g else g
      else g)
    g

/-- Embedding of `SearchGraph.search_step`: sort the frontier, pop its
head, return it if its heuristic is 0, otherwise close and expand it.
Popping an empty frontier raises `IndexError` in Python. -/
def search_step (wl : List Hist) (g : SearchGraph) :
    Except Unit (Option Node × SearchGraph) :=
  match sortNodes g.frontier with
  | [] => .error ()
  | test :: rest =>
    if test.cost_h = 0 then
      .ok (some test, { g with frontier := rest })
    else
      .ok (none,
        search_step_expand wl
          { g with frontier := rest, closed := g.closed ++ [test] } test)

/-- Embedding of the mutable state of class `BiSearchGraph`. -/
structure BiSearchGraph where
  north : SearchGraph
  south : SearchGraph
deriving DecidableEq, Repr

/-- Embedding of `BiSearchGraph.__init__`. -/
def BiSearchGraph.init (wl : List Hist) (s t : String) : BiSearchGraph :=
  { north := SearchGraph.init wl s t, south := SearchGraph.init wl t s }

/-- Inner loop of `BiSearchGraph.intersect` for a fixed north node: find
the first south node with the same histogram; on a match, `nd1.attach(nd2)`
mutates `nd1` (fused) and reverses `nd2.actions` in place, both inside
their frontier lists. -/
def intersectSouth (nd1 : Node) (south : List Node) :
    Option (Node × List Node) :=
  match south with
  | [] => none
  | nd2 :: rest =>
    if nd1.current_hist = nd2.current_hist then
      some (Node.attach nd1 nd2,
        { nd2 with actions := nd2.actions.reverse } :: rest)
    else
      (intersectSouth nd1 rest).map (fun p => (p.1, nd2 :: p.2))

/-- Outer loop of `BiSearchGraph.intersect` over the north frontier. -/
def intersectNorth (north south : List Node) :
    Option (List Node × List Node) :=
  match north with
  | [] => none
  | nd1 :: rest =>
    match intersectSouth nd1 south with
    | some (fused, south') => some (fused :: rest, south')
    | none => (intersectNorth rest south).map (fun p => (nd1 :: p.1, p.2))

/-- Embedding of `BiSearchGraph.intersect`.  Its Python return value is
`nd1.attach(nd2)` on a match and `None` otherwise; `attach` has no return
statement, so the call always evaluates to `None` and only the state
change survives. -/
def BiSearchGraph.intersect (b : BiSearchGraph) : BiSearchGraph :=
  match intersectNorth b.north.frontier b.south.frontier with
  | none => b
  | some (nf, sf) =>
    { north := { b.north with frontier := nf }
      south := { b.south with frontier := sf } }

/-- Embedding of the `while` loop of `BiSearchGraph.search`, with explicit
fuel.  The backward-solution branch executes `self.solution =
flip(nd_south)`, but no `flip` is defined anywhere in the source or its
imports, so reaching that branch raises `NameError`. -/
def biSearchLoop (wl : List Hist) : Nat → BiSearchGraph → RunResult
  | 0, _ => .outOfFuel
  | fuel + 1, b =>
    if b.north.frontier ≠ [] ∧ b.south.frontier ≠ [] then
      match search_step wl b.north with
      | .error _ => .indexError
      | .ok (some nd, _) => .ok (some nd)
      | .ok (none, north') =>
        let b1 := BiSearchGraph.intersect { b with north := north' }
        match search_step wl b1.south with
        | .error _ => .indexError
        | .ok (some _, _) => .nameError
        | .ok (none, south') =>
          biSearchLoop wl fuel
            (BiSearchGraph.intersect { b1 with south := south' })
    else .ok none

/-- Embedding of the module entry: build the bidirectional search for the
two words and run it. -/
def run_ladder (wl : List Hist) (fuel : Nat) (s t : String) : RunResult :=
  biSearchLoop wl fuel (BiSearchGraph.init wl s t)

/-- Embedding of the final `node.display_moves()` call: materialize the
returned node's path through `list_of_moves` of its graph (`mygraph` of
every node the loop can return is the north graph, whose start word is `s`
and target word is `t`). -/
def display_run (words : List String) (fuel : Nat) (s t : String) :
    Option (List String) :=
  match run_ladder (mk_wordlist words) fuel s t with
  | .ok (some nd) =>
    some (list_of_moves (mk_wordlist words) words
      (word_to_histogram s) (word_to_histogram t) s t nd.actions)
  | _ => none

/-- A valid ladder move between histograms: exactly one letter count
changes by 1 (an addition or a removal of one letter). -/
def validMove (a b : Hist) : Prop :=
  ∃ i, i < a.length ∧
    (b = a.set i (a.getD i 0 + 1) ∨ b = a.set i (a.getD i 0 - 1))

/-- A sequence of `n` valid moves from `a` to `b`. -/
def chainMoves : Nat → Hist → Hist → Prop
  | 0, a, b => a = b
  | n + 1, a, b => ∃ c, validMove a c ∧ chainMoves n c b

/- Concrete fixtures used by the evaluation theorems below. -/

/-- Dictionary `["cat", "cats"]`, on which the two frontiers intersect
after the first forward expansion. -/
def wl2 : List Hist := mk_wordlist ["cat", "cats"]

/-- The node the run on `wl2` ends with: the forward node mutated by
`attach` at the frontier intersection. -/
def fusedNode : Node :=
  { current_hist := word_to_histogram "cats"
    cost_f := 1
    cost_h := 0
    cost_total := 1
    actions := [0, 1, 1] }

/-- Spec fixture 3's dictionary. -/
def wl6 : List Hist :=
  mk_wordlist ["cat", "cats", "cast", "cost", "cot", "cop"]

/-- Dictionary `["a", "ab"]` for the decrease-key step. -/
def wlC2 : List Hist := mk_wordlist ["a", "ab"]

/-- Root node of the graph `"a" → "ab"` over `wlC2`. -/
def PC2 : Node :=
  Node.init wlC2 (word_to_histogram "a") (word_to_histogram "ab")

/-- A stale frontier entry at the histogram of `"ab"` with total cost 5. -/
def OC2 : Node :=
  { current_hist := word_to_histogram "ab"
    cost_f := 5
    cost_h := 0
    cost_total := 5
    actions := [1, 0, 1, 0, 1, 1] }

/-- The candidate successor that the expansion of `PC2` generates at the
histogram of `"ab"`, with total cost 1. -/
def XC2 : Node :=
  Node.move_to_neighbour PC2 (word_to_histogram "ab")
    (word_to_histogram "ab") 1

/-- Search state whose frontier holds the root and the stale entry. -/
def gC2 : SearchGraph :=
  { start_word := "a"
    target_word := "ab"
    start_hist := word_to_histogram "a"
    target_hist := word_to_histogram "ab"
    frontier := [PC2, OC2]
    closed := [] }

/-- Dictionary for the backward-solution branch: one word far away from
everything, so the forward root has no successors. -/
def wl3 : List Hist := mk_wordlist ["xxxx"]

/-- A backward node sitting at the backward graph's target histogram
(heuristic 0), about to be popped as a backward solution. -/
def Q3 : Node :=
  { current_hist := word_to_histogram "a"
    cost_f := 3
    cost_h := 0
    cost_total := 3
    actions := [-1, -1, -1, -1] }

/-- Bidirectional state whose next backward step yields a solution. -/
def st3 : BiSearchGraph :=
  { north := SearchGraph.init wl3 "a" "ab"
    south := { SearchGraph.init wl3 "ab" "a" with frontier := [Q3] } }

/-- Frontier node with total cost 5, inserted first. -/
def nW5 : Node :=
  { current_hist := [0], cost_f := 5, cost_h := 0, cost_total := 5
    actions := [0] }

/-- Frontier node with total cost 3, inserted second. -/
def nW3a : Node :=
  { current_hist := [1], cost_f := 3, cost_h := 0, cost_total := 3
    actions := [1] }

/-- Frontier node with total cost 3, inserted third (tied with `nW3a`). -/
def nW3b : Node :=
  { current_hist := [2], cost_f := 3, cost_h := 0, cost_total := 3
    actions := [2] }

/-- A search state with a cost tie in the frontier. -/
def gW : SearchGraph :=
  { start_word := "s"
    target_word := "t"
    start_hist := [0]
    target_hist := [9]
    frontier := [nW5, nW3a, nW3b]
    closed := [] }

/- Heuristic lemmas (claim C5). -/

theorem heuristic_cons (x y : Int) (xs ys : Hist) :
    heuristic (x :: xs) (y :: ys) = |x - y| + heuristic xs ys := by
  simp [heuristic]

theorem heuristic_self (a : Hist) : heuristic a a = 0 := by
  induction a with
  | nil => simp [heuristic]
  | cons x xs ih => rw [heuristic_cons, ih]; simp

theorem heuristic_comm (a : Hist) : ∀ b : Hist, heuristic a b = heuristic b a := by
  induction a with
  | nil => intro b; cases b <;> simp [heuristic]
  | cons x xs ih =>
    intro b
    cases b with
    | nil => simp [heuristic]
    | cons y ys => rw [heuristic_cons, heuristic_cons, abs_sub_comm, ih]

theorem heuristic_triangle (a : Hist) :
    ∀ (b c : Hist), a.length = b.length → b.length = c.length →
    heuristic a c ≤ heuristic a b + heuristic b c := by
  induction a with
  | nil =>
    intro b c hab hbc
    cases b with
    | nil =>
      cases c with
      | nil => simp [heuristic]
      | cons z zs => simp at hbc
    | cons y ys => simp at hab
  | cons x xs ih =>
    intro b c hab hbc
    cases b with
    | nil => simp at hab
    | cons y ys =>
      cases c with
      | nil => simp at hbc
      | cons z zs =>
        rw [heuristic_cons, heuristic_cons, heuristic_cons]
        have h1 : |x - z| ≤ |x - y| + |y - z| := abs_sub_le x y z
        have h2 := ih ys zs (by simpa using hab) (by simpa using hbc)
        linarith

theorem heuristic_set (a : Hist) :
    ∀ (i : Nat) (d : Int), i < a.length →
    heuristic a (a.set i (a.getD i 0 + d)) = |d| := by
  induction a with
  | nil => intro i d h; simp at h
  | cons x xs ih =>
    intro i d h
    cases i with
    | zero =>
      simp only [List.getD_cons_zero, List.set_cons_zero]
      rw [heuristic_cons, heuristic_self]
      rw [show x - (x + d) = -d by ring, abs_neg]
      simp
    | succ n =>
      simp only [List.getD_cons_succ, List.set_cons_succ]
      rw [heuristic_cons, sub_self, abs_zero]
      rw [ih n d (by simpa using h)]
      simp

theorem validMove_heuristic {a b : Hist} (h : validMove a b) :
    heuristic a b = 1 := by
  obtain ⟨i, hi, hcase⟩ := h
  cases hcase with
  | inl hb => rw [hb, heuristic_set a i 1 hi]; simp
  | inr hb =>
    rw [hb, show a.getD i 0 - 1 = a.getD i 0 + (-1) by ring,
      heuristic_set a i (-1) hi]
    simp

theorem validMove_length {a b : Hist} (h : validMove a b) :
    b.length = a.length := by
  obtain ⟨i, _, hcase⟩ := h
  cases hcase with
  | inl hb => rw [hb, List.length_set]
  | inr hb => rw [hb, List.length_set]

theorem chainMoves_length {n : Nat} :
    ∀ {a b : Hist}, chainMoves n a b → b.length = a.length := by
  induction n with
  | zero => intro a b h; rw [show a = b from h]
  | succ m ih =>
    intro a b h
    obtain ⟨c, mv, rest⟩ := h
    rw [ih rest, validMove_length mv]

/-- Claim C5. The heuristic (L1 distance between histograms) is admissible
and consistent: a histogram reachable in `N` valid unit moves is at
heuristic distance at most `N`, and one valid move changes the heuristic
estimate to any fixed target histogram by at most 1. -/
theorem heuristic_admissible_and_consistent :
    (∀ (N : Nat) (h1 h2 : Hist), chainMoves N h1 h2 →
      heuristic h1 h2 ≤ (N : Int)) ∧
    (∀ (a b t : Hist), validMove a b → t.length = a.length →
      |heuristic a t - heuristic b t| ≤ 1) := by
  constructor
  · intro N
    induction N with
    | zero =>
      intro h1 h2 h
      rw [show h1 = h2 from h, heuristic_self]
      simp
    | succ n ih =>
      intro h1 h2 h
      obtain ⟨c, mv, rest⟩ := h
      have hlen1 : c.length = h1.length := validMove_length mv
      have hlen2 : h2.length = c.length := chainMoves_length rest
      have tri := heuristic_triangle h1 c h2 hlen1.symm hlen2.symm
      have h1c := validMove_heuristic mv
      have hrest := ih c h2 rest
      push_cast
      linarith
  · intro a b t mv hlen
    have hab := validMove_heuristic mv
    have hba : heuristic b a = 1 := by rw [heuristic_comm]; exact hab
    have hlenb : b.length = a.length := validMove_length mv
    have t1 := heuristic_triangle a b t hlenb.symm (by omega)
    have t2 := heuristic_triangle b a t hlenb (by omega)
    rw [abs_sub_le_iff]
    constructor <;> linarith

/-- Witness for C5: one concrete move `[0] → [1]` and the two bounds. -/
theorem heuristic_admissible_and_consistent_witness :
    heuristic [(0 : Int)] [1] ≤ ((1 : Nat) : Int) ∧
    |heuristic [(0 : Int)] [5] - heuristic [1] [5]| ≤ 1 :=
  ⟨heuristic_admissible_and_consistent.1 1 [0] [1]
      ⟨[1], ⟨0, by decide, Or.inl (by decide)⟩, rfl⟩,
   heuristic_admissible_and_consistent.2 [0] [1] [5]
      ⟨0, by decide, Or.inl (by decide)⟩ rfl⟩

/- Lookup lemmas (claim C6). -/

theorem hist_to_index_go_not_found (h : Hist) (wl : List Hist) :
    ∀ i : Nat, (∀ x ∈ wl, x ≠ h) → hist_to_index_go h wl i = -1 := by
  induction wl with
  | nil => intro i _; simp [hist_to_index_go]
  | cons x rest ih =>
    intro i hall
    have hx : x ≠ h := hall x (by simp)
    rw [hist_to_index_go, if_neg hx]
    exact ih (i + 1) (fun y hy => hall y (by simp [hy]))

theorem hist_to_index_go_found (h : Hist) (wl : List Hist) :
    ∀ (i k : Nat), wl.get? k = some h →
    (∀ j, j < k → ∀ g, wl.get? j = some g → g ≠ h) →
    hist_to_index_go h wl i = (i : Int) + (k : Int) := by
  induction wl with
  | nil => intro i k hk _; simp at hk
  | cons x rest ih =>
    intro i k hk hfirst
    cases k with
    | zero =>
      simp at hk
      rw [hist_to_index_go, if_pos hk]
      simp
    | succ n =>
      have hx : x ≠ h := hfirst 0 (by omega) x (by simp)
      rw [hist_to_index_go, if_neg hx]
      rw [ih (i + 1) n (by simpa using hk)
        (fun j hj g hg => hfirst (j + 1) (by omega) g (by simpa using hg))]
      push_cast
      ring

/-- Claim C6. `hist_to_index` is a pure function (hence deterministic) and
returns the first (lowest-index, file-order) wordlist entry whose
histogram equals the queried one; it returns `-1` (the NotFound sentinel)
when no entry matches. -/
theorem hist_to_index_first_match :
    (∀ (wl : List Hist) (h : Hist) (k : Nat), wl.get? k = some h →
      (∀ j, j < k → ∀ g, wl.get? j = some g → g ≠ h) →
      hist_to_index wl h = (k : Int)) ∧
    (∀ (wl : List Hist) (h : Hist), (∀ x ∈ wl, x ≠ h) →
      hist_to_index wl h = -1) := by
  constructor
  · intro wl h k hk hfirst
    have := hist_to_index_go_found h wl 0 k hk hfirst
    simpa [hist_to_index] using this
  · intro wl h hall
    simpa [hist_to_index] using hist_to_index_go_not_found h wl 0 hall

/-- Witness for C6: duplicate histograms resolve to the lowest index, and
an absent histogram resolves to `-1`. -/
theorem hist_to_index_first_match_witness :
    hist_to_index [[(0 : Int)], [1], [1]] [1] = ((1 : Nat) : Int) ∧
    hist_to_index [[(0 : Int)], [1], [1]] [2] = -1 :=
  ⟨hist_to_index_first_match.1 [[(0 : Int)], [1], [1]] [1] 1 (by decide)
      (by
        intro j hj g hg
        have hj0 : j = 0 := by omega
        subst hj0
        simp at hg
        subst hg
        decide),
   hist_to_index_first_match.2 [[(0 : Int)], [1], [1]] [2] (by decide)⟩

/- Sorting lemmas (claim C7). -/

theorem insertNode_ne_nil (n : Node) (l : List Node) : insertNode n l ≠ [] := by
  cases l with
  | nil => simp [insertNode]
  | cons m rest =>
    rw [insertNode]
    split <;> simp

theorem sortNodes_append_single (l : List Node) (a : Node) :
    sortNodes (l ++ [a]) = insertNode a (sortNodes l) := by
  simp [sortNodes, List.foldl_append]

theorem sortNodes_eq_nil {l : List Node} (h : sortNodes l = []) : l = [] := by
  induction l using List.reverseRecOn with
  | nil => rfl
  | append_singleton l a _ =>
    rw [sortNodes_append_single] at h
    exact absurd h (insertNode_ne_nil a _)

theorem find_first_append_none {α : Type} {p : α → Bool} {l1 : List α}
    (l2 : List α) (h : l1.find? p = none) :
    (l1 ++ l2).find? p = l2.find? p := by
  simp [List.find?_append, h]

theorem find_first_append_some {α : Type} {p : α → Bool} {l1 : List α}
    {x : α} (l2 : List α) (h : l1.find? p = some x) :
    (l1 ++ l2).find? p = some x := by
  simp [List.find?_append, h]

theorem sortNodes_head_min_earliest {l : List Node} {test : Node}
    {rest : List Node} (h : sortNodes l = test :: rest) :
    (∀ m ∈ l, test.cost_total ≤ m.cost_total) ∧
    l.find? (fun m => decide (m.cost_total ≤ test.cost_total)) = some test := by
  induction l using List.reverseRecOn generalizing test rest with
  | nil => simp [sortNodes] at h
  | append_singleton l a ih =>
    rw [sortNodes_append_single] at h
    cases hs : sortNodes l with
    | nil =>
      have hl : l = [] := sortNodes_eq_nil hs
      subst hl
      rw [hs] at h
      rw [show insertNode a [] = [a] from rfl] at h
      obtain ⟨rfl, rfl⟩ : a = test ∧ [] = rest := by
        constructor
        · exact (List.cons.injEq _ _ _ _ ▸ h).1
        · exact (List.cons.injEq _ _ _ _ ▸ h).2
      constructor
      · intro m hm
        simp at hm
        subst hm
        exact le_refl _
      · rw [List.nil_append]
        exact List.find?_cons_of_pos [] (by simp)
    | cons n rest' =>
      rw [hs] at h
      obtain ⟨hmin, hfind⟩ := ih hs
      rw [insertNode] at h
      by_cases hc : a.cost_total < n.cost_total
      · rw [if_pos hc] at h
        have ha : a = test := (List.cons.injEq _ _ _ _ ▸ h).1
        subst ha
        constructor
        · intro m hm
          rcases List.mem_append.mp hm with hm | hm
          · exact le_trans (le_of_lt hc) (hmin m hm)
          · simp at hm
            subst hm
            exact le_refl _
        · have hnone :
              l.find? (fun m => decide (m.cost_total ≤ a.cost_total)) =
                none := by
            rw [List.find?_eq_none]
            intro x hx
            have h1 := hmin x hx
            simp only [decide_eq_true_eq]
            omega
          rw [find_first_append_none [a] hnone]
          exact List.find?_cons_of_pos [] (by simp)
      · rw [if_neg hc] at h
        have hn : n = test := (List.cons.injEq _ _ _ _ ▸ h).1
        subst hn
        constructor
        · intro m hm
          rcases List.mem_append.mp hm with hm | hm
          · exact hmin m hm
          · simp at hm
            subst hm
            omega
        · exact find_first_append_some [a] hfind

/-- Claim C7. `search_step` removes from the frontier the head of the stable
sort of the frontier by `total_cost` (`Node.__lt__`): a node of minimum
`total_cost`, and — shown by the `find?` conjunct — the earliest-positioned
frontier node among those attaining the minimum.  Since the sort is stable
and insertions append at the end, the frontier's list order among
equal-cost nodes is their insertion order, so this is the node inserted
earliest among the ties. -/
theorem search_step_pops_earliest_min (wl : List Hist) (g : SearchGraph)
    (test : Node) (rest : List Node)
    (h : sortNodes g.frontier = test :: rest) :
    search_step wl g =
      (if test.cost_h = 0 then .ok (some test, { g with frontier := rest })
       else .ok (none, search_step_expand wl
         { g with frontier := rest, closed := g.closed ++ [test] } test)) ∧
    (∀ m ∈ g.frontier, test.cost_total ≤ m.cost_total) ∧
    g.frontier.find? (fun m => decide (m.cost_total ≤ test.cost_total)) =
      some test := by
  refine ⟨?_, (sortNodes_head_min_earliest h).1,
    (sortNodes_head_min_earliest h).2⟩
  rw [search_step, h]

/-- Witness for C7: on the frontier `[nW5, nW3a, nW3b]` (costs 5, 3, 3 in
insertion order) the popped node is `nW3a`, the earlier of the two
minimum-cost ties. -/
theorem search_step_pops_earliest_min_witness :
    nW3a.cost_total ≤ nW5.cost_total ∧
    gW.frontier.find? (fun m => decide (m.cost_total ≤ nW3a.cost_total)) =
      some nW3a :=
  ⟨(search_step_pops_earliest_min [] gW nW3a [nW3b, nW5]
      (by decide)).2.1 nW5 (by decide),
   (search_step_pops_earliest_min [] gW nW3a [nW3b, nW5] (by decide)).2.2⟩

/- Concrete evaluations of the embedded program (claims C1, C2, C3, C4,
C8, and the counterexamples of C9 and C10). -/

/-- Claim C1. On the dictionary `["cat", "cats"]` with start `"cat"` and
target `"cats"`, the frontiers intersect right after the first forward
expansion (forward path `[0, 1]`, backward path `[1]`, shared boundary at
word index 1).  The claim's fused path would be `[0, 1]`; the run instead
ends with path `[0, 1, 1]`: `attach` keeps the backward path's first
element (the shared boundary is duplicated), and because `attach` returns
`None`, `intersect` returns `None` and the fused node is only returned one
step later, when the forward step pops it (its heuristic is now 0).  The
claimed cost (`forward g + backward g = 1`) and heuristic (0) parts do
hold on the mutated node. -/
theorem fused_run_duplicates_boundary :
    run_ladder wl2 10 "cat" "cats" = .ok (some fusedNode) ∧
    fusedNode.actions = [0, 1, 1] ∧
    fusedNode.cost_f = 1 ∧ fusedNode.cost_h = 0 := by
  refine ⟨?_, rfl, rfl, rfl⟩
  rfl

/-- Claim C8. Same run as above: the solution node the search returns has
`len(path) = 3` but `g = 1`, i.e. path length `g + 2`, violating the
`path length = g + 1` invariant (the boundary element appears twice). -/
theorem fused_solution_breaks_path_invariant :
    run_ladder wl2 10 "cat" "cats" = .ok (some fusedNode) ∧
    (fusedNode.actions.length : Int) = fusedNode.cost_f + 2 := by
  refine ⟨?_, rfl⟩
  rfl

/-- Claim C2. One `search_step` on the state `gC2`: the popped root expands
to the candidate `XC2` at the histogram of `"ab"` with `total_cost = 1`,
strictly below the stored frontier entry `OC2` (`total_cost = 5`, same
histogram).  The claim requires `OC2` to be replaced by the candidate; the
code's `tmp = new_node` only rebinds a local alias, so after the step the
frontier still holds `OC2` and not the candidate. -/
theorem search_step_decrease_key_noop :
    search_step wlC2 gC2 =
      .ok (none, { gC2 with frontier := [OC2], closed := [PC2] }) ∧
    XC2.current_hist = OC2.current_hist ∧
    XC2.cost_total < OC2.cost_total ∧
    XC2 ≠ OC2 := by
  refine ⟨?_, rfl, by decide, by decide⟩
  rfl

/-- Claim C3. On the state `st3` the forward step exhausts its frontier
without a solution, the frontiers do not intersect, and the backward step
then yields a solution node (`Q3`, heuristic 0).  The loop executes
`self.solution = flip(nd_south)`, but no `flip` is defined anywhere in the
source or its imports, so the run raises `NameError` instead of returning
the path-reversed solution (and the `return` statement would return the
unreversed `nd_south` in any case). -/
theorem south_solution_branch_name_error :
    biSearchLoop wl3 3 st3 = .nameError ∧
    (sortNodes st3.south.frontier).head? = some Q3 ∧
    Q3.cost_h = 0 := by
  refine ⟨?_, rfl, rfl⟩
  rfl

/-- Claim C4. Spec fixture 3: start `"cat"`, target `"xyz"` on the six-word
dictionary.  The histogram of `"xyz"` matches no dictionary entry
(`hist_to_index` gives `-1`), yet no error is reported before searching:
the engine builds a backward root whose path is `[-1]`, performs search
steps on both sides, and ends with `None` once the backward frontier
exhausts — there is no `WordNotInDictionary` check anywhere in the code. -/
theorem no_word_not_in_dictionary_check :
    hist_to_index wl6 (word_to_histogram "xyz") = -1 ∧
    (SearchGraph.init wl6 "xyz" "cat").frontier.map Node.actions = [[-1]] ∧
    run_ladder wl6 10 "cat" "xyz" = .ok none := by
  refine ⟨rfl, rfl, ?_⟩
  rfl

/-- Claim C9, counterexample. Start `"act"` and target `"cat"` are anagrams
and both are in the dictionary `["act", "cat"]`.  The search succeeds at
once with the single-entry path `[0]`, and the emitted sequence is
`["act"]`: its last word is the literal start string `"act"`, not the
literal target string `"cat"`, refuting the claim as stated. -/
theorem endpoint_fidelity_counterexample :
    display_run ["act", "cat"] 10 "act" "cat" = some ["act"] ∧
    "act" ≠ "cat" := by
  refine ⟨?_, by decide⟩
  rfl

/-- Claim C10, counterexample. Materializing the path `[0, 1, 0]` over the
dictionary `["act", "cat"]` with start `"act"` and target `"cat"`: entry 1
is the dictionary word `"cat"`, whose histogram equals the target word's
histogram, yet it is emitted as `"act"` (the start replacement is tested
first and the two histograms are equal), refuting the claim that every
entry matching the target histogram is emitted as the literal target
string. -/
theorem interior_replacement_counterexample :
    list_of_moves (mk_wordlist ["act", "cat"]) ["act", "cat"]
      (word_to_histogram "act") (word_to_histogram "cat") "act" "cat"
      [0, 1, 0] = ["act", "act", "act"] ∧
    word_to_histogram "cat" = word_to_histogram "act" ∧
    "act" ≠ "cat" := by
  refine ⟨?_, ?_, by decide⟩ <;> rfl

/-- Claim C9, amended. For a materialized path: the first emitted word is
the literal start string whenever the first entry's histogram is at
heuristic distance 0 from the start histogram (which holds for every
solution path); the last emitted word is the literal target string
whenever the last entry matches the target histogram but not the start
histogram; when the last entry also matches the start histogram (start and
target are anagrams) the last emitted word is the literal start string. -/
theorem endpoint_fidelity_amended (wl : List Hist) (words : List String)
    (sh th : Hist) (sw tw : String) (actions : List Int) :
    (∀ a, actions.head? = some a → heuristic (pyGetHist wl a) sh = 0 →
      (list_of_moves wl words sh th sw tw actions).head? = some sw) ∧
    (∀ b, actions.getLast? = some b → heuristic (pyGetHist wl b) sh = 0 →
      (list_of_moves wl words sh th sw tw actions).getLast? = some sw) ∧
    (∀ b, actions.getLast? = some b → heuristic (pyGetHist wl b) sh ≠ 0 →
      heuristic (pyGetHist wl b) th = 0 →
      (list_of_moves wl words sh th sw tw actions).getLast? = some tw) := by
  refine ⟨?_, ?_, ?_⟩
  · intro a ha h0
    rw [list_of_moves, List.head?_map, ha]
    simp [emit_entry, h0]
  · intro b hb h0
    rw [list_of_moves, List.getLast?_map, hb]
    simp [emit_entry, h0]
  · intro b hb hns h0
    rw [list_of_moves, List.getLast?_map, hb]
    simp [emit_entry, hns, h0]

/-- Witness for the amended C9. -/
theorem endpoint_fidelity_amended_witness :
    (list_of_moves [[(0 : Int)], [1]] ["p", "q"] [0] [1] "s" "t"
      [0, 1]).head? = some "s" ∧
    (list_of_moves [[(0 : Int)], [1]] ["p", "q"] [0] [1] "s" "t"
      [0, 1]).getLast? = some "t" :=
  ⟨(endpoint_fidelity_amended [[(0 : Int)], [1]] ["p", "q"] [0] [1] "s" "t"
      [0, 1]).1 0 (by decide) (by decide),
   (endpoint_fidelity_amended [[(0 : Int)], [1]] ["p", "q"] [0] [1] "s" "t"
      [0, 1]).2.2 1 (by decide) (by decide) (by decide)⟩

/-- Claim C10, amended. When materializing a path, every entry whose
histogram is at heuristic distance 0 from the start histogram is emitted
as the literal start string; every entry matching the target histogram
but not the start histogram is emitted as the literal target string (the
start replacement takes precedence); every other entry is emitted with
its own dictionary spelling. -/
theorem interior_replacement_amended (wl : List Hist) (words : List String)
    (sh th : Hist) (sw tw : String) (actions : List Int) (i : Nat) (a : Int)
    (ha : actions.get? i = some a) :
    (heuristic (pyGetHist wl a) sh = 0 →
      (list_of_moves wl words sh th sw tw actions).get? i = some sw) ∧
    (heuristic (pyGetHist wl a) sh ≠ 0 → heuristic (pyGetHist wl a) th = 0 →
      (list_of_moves wl words sh th sw tw actions).get? i = some tw) ∧
    (heuristic (pyGetHist wl a) sh ≠ 0 → heuristic (pyGetHist wl a) th ≠ 0 →
      (list_of_moves wl words sh th sw tw actions).get? i =
        some (pyGetStr words a)) := by
  refine ⟨?_, ?_, ?_⟩
  · intro h0
    rw [list_of_moves, List.get?_map, ha]
    simp [emit_entry, h0]
  · intro hns h0
    rw [list_of_moves, List.get?_map, ha]
    simp [emit_entry, hns, h0]
  · intro hns hnt
    rw [list_of_moves, List.get?_map, ha]
    simp [emit_entry, hns, hnt]

/-- Witness for the amended C10, exercising the start and target branches
on interior entries. -/
theorem interior_replacement_amended_witness :
    (list_of_moves [[(0 : Int)], [1]] ["p", "q"] [0] [1] "s" "t"
      [1, 0, 1]).get? 1 = some "s" ∧
    (list_of_moves [[(0 : Int)], [1]] ["p", "q"] [0] [1] "s" "t"
      [1, 0, 1]).get? 2 = some "t" :=
  ⟨(interior_replacement_amended [[(0 : Int)], [1]] ["p", "q"] [0] [1]
      "s" "t" [1, 0, 1] 1 0 (by decide)).1 (by decide),
   (interior_replacement_amended [[(0 : Int)], [1]] ["p", "q"] [0] [1]
      "s" "t" [1, 0, 1] 2 1 (by decide)).2.1 (by decide) (by decide)⟩

end Ladder
